import Mathlib

/-
Verification of the `calculator` crate's expression pipeline
(`src/parsemath/tokenizer.rs`, `src/parsemath/parser.rs`,
`src/parsemath/visitors.rs`): lexical tokenization, recursive-descent
parsing into an `Expression` tree, and the `Evaluator` / pretty-printer
visitors.

Numeric model: the crate computes with `f64`; here `f64` values are
embedded as exact rationals (`ℚ`).  Every numeric literal and every
arithmetic operation appearing in the verified statements is exactly
representable in binary floating point, where IEEE-754 arithmetic and
exact rational arithmetic agree; IEEE `==` identifies `-0.0` with `0.0`,
exactly as equality does in `ℚ`.  Strings are embedded as `List Char`
(Rust iterates over `char`s; all inputs involved are ASCII).
-/

deriving instance DecidableEq for Except

namespace Calc

/-- `Token` (tokenizer.rs): the seven lexical tokens. -/
inductive Token where
  | plus
  | minus
  | star
  | slash
  | leftParen
  | rightParen
  | number (value : ℚ)

deriving instance DecidableEq for Token

/-- `TokenizingError` (tokenizer.rs). -/
inductive TokenizingError where
  | invalidCharacter (c : Char)
  | invalidNumber

deriving instance DecidableEq for TokenizingError

/-- The `Display` rendering of `TokenizingError`, from its
`#[error(...)]` attributes: `"Unexpected token '{0}'"` and
`"Invalid number format"`. -/
def TokenizingError.message : TokenizingError → String
  | .invalidCharacter c => "Unexpected token '" ++ String.singleton c ++ "'"
  | .invalidNumber => "Invalid number format"

/-- Numeric value of a list of ASCII digits, most significant first. -/
def digitsToNat (s : List Char) : Nat :=
  s.foldl (fun acc c => acc * 10 + (c.toNat - '0'.toNat)) 0

/-- The characters `tokenize_number` keeps consuming after the initial
digit: ASCII digits and `'.'` (the `Some('0'..='9') | Some('.')` peek
pattern). -/
def isNumChar (c : Char) : Bool := c.isDigit || c = '.'

/-- Model of Rust `str::parse::<f64>()` on the strings the tokenizer can
hand to it (a digit followed by digits and dots; the function is total on
`List Char` but only those inputs occur).  Per the float grammar, such a
string parses iff it contains at most one `'.'`; the value is read
exactly into `ℚ` (all literals appearing in the verified statements are
exactly representable in `f64`). -/
def parseFloat (s : List Char) : Option ℚ :=
  let ip := s.takeWhile (fun c => c.isDigit)
  match s.dropWhile (fun c => c.isDigit) with
  | [] => if ip = [] then none else some ((digitsToNat ip : ℚ))
  | '.' :: fs =>
    if fs.all (fun c => c.isDigit) then
      match ip, fs with
      | [], [] => none
      | _, [] => some ((digitsToNat ip : ℚ))
      | _, _ => some ((digitsToNat ip : ℚ) + (digitsToNat fs : ℚ) / 10 ^ fs.length)
    else none
  | _ => none

/-- The accumulation loop of `tokenize_number`: greedily consume digits
and dots, returning the consumed prefix and the remaining input. -/
def takeNum : List Char → List Char × List Char
  | [] => ([], [])
  | c :: rest =>
    if isNumChar c then
      let p := takeNum rest
      (c :: p.1, p.2)
    else ([], c :: rest)

/-- `skip_whitespace` (tokenizer.rs): skip literal `' '` characters only. -/
def skipSpaces : List Char → List Char
  | [] => []
  | c :: rest => if c = ' ' then skipSpaces rest else c :: rest

/-- Dispatch on the first non-space character, as the `match c` in
`<Tokenizer as Iterator>::next` does; `rest` is the input after `c`. -/
def tokNextCore (c : Char) (rest : List Char) :
    Except TokenizingError (Token × List Char) :=
  if c = '+' then .ok (.plus, rest)
  else if c = '-' then .ok (.minus, rest)
  else if c = '*' then .ok (.star, rest)
  else if c = '/' then .ok (.slash, rest)
  else if c = '(' then .ok (.leftParen, rest)
  else if c = ')' then .ok (.rightParen, rest)
  else if c.isDigit then
    match parseFloat (c :: (takeNum rest).1) with
    | some q => .ok (.number q, (takeNum rest).2)
    | none => .error .invalidNumber
  else .error (.invalidCharacter c)

/-- One call to `<Tokenizer as Iterator>::next`: skip spaces, then
produce the next token (or tokenizing error) together with the remaining
input; `none` models iterator exhaustion at end of input. -/
def tokNext (s : List Char) : Option (Except TokenizingError (Token × List Char)) :=
  match skipSpaces s with
  | [] => none
  | c :: rest => some (tokNextCore c rest)

/-- Driving the tokenizer to completion, as
`collect::<Result<Vec<Token>, TokenizingError>>()` does inside
`Parser::new`: gather tokens in order, stopping at the first error.
Fuel-indexed to make the recursion structural; each step consumes at
least one character, so fuel `s.length + 1` always suffices. -/
def tokenizeF : Nat → List Char → Option (Except TokenizingError (List Token))
  | 0, _ => none
  | fuel + 1, s =>
    match tokNext s with
    | none => some (.ok [])
    | some (.error e) => some (.error e)
    | some (.ok (t, rest)) => (tokenizeF fuel rest).map (fun r => r.map (t :: ·))

/-- The collected tokenization of an input string. -/
def tokenize (s : List Char) : Except TokenizingError (List Token) :=
  (tokenizeF (s.length + 1) s).getD (.ok [])

theorem skipSpaces_length (s : List Char) : (skipSpaces s).length ≤ s.length := by
  induction s with
  | nil => simp [skipSpaces]
  | cons c rest ih =>
    simp only [skipSpaces]
    split
    · exact Nat.le_trans ih (Nat.le_succ _)
    · exact Nat.le_refl _

theorem takeNum_eq_span (s : List Char) :
    takeNum s = (s.takeWhile isNumChar, s.dropWhile isNumChar) := by
  induction s with
  | nil => simp [takeNum, List.takeWhile, List.dropWhile]
  | cons c rest ih =>
    simp only [takeNum, List.takeWhile, List.dropWhile]
    cases h : isNumChar c with
    | true => simp [h, ih]
    | false => simp [h]

theorem dropWhile_length_le (p : Char → Bool) (s : List Char) :
    (s.dropWhile p).length ≤ s.length := by
  induction s with
  | nil => simp [List.dropWhile]
  | cons c rest ih =>
    simp only [List.dropWhile]
    cases p c with
    | false => exact Nat.le_refl _
    | true => exact Nat.le_succ_of_le ih

theorem tokNextCore_length {c : Char} {tail rest : List Char} {t : Token}
    (h : tokNextCore c tail = .ok (t, rest)) : rest.length ≤ tail.length := by
  have hdrop : (tail.dropWhile isNumChar).length ≤ tail.length :=
    dropWhile_length_le isNumChar tail
  unfold tokNextCore at h
  split_ifs at h <;>
    first
      | (simp only [Except.ok.injEq, Prod.mk.injEq] at h
         obtain ⟨_, rfl⟩ := h
         omega)
      | (rw [takeNum_eq_span] at h
         split at h <;>
           simp only [Except.ok.injEq, Prod.mk.injEq, reduceCtorEq] at h
         obtain ⟨_, rfl⟩ := h
         omega)

theorem tokNext_length {s rest : List Char} {t : Token}
    (h : tokNext s = some (.ok (t, rest))) : rest.length < s.length := by
  unfold tokNext at h
  cases hs : skipSpaces s with
  | nil => rw [hs] at h; exact absurd h (by simp)
  | cons c tail =>
    rw [hs] at h
    have htail : tail.length < s.length := by
      have := skipSpaces_length s
      rw [hs] at this
      simp only [List.length_cons] at this
      omega
    simp only [Option.some.injEq] at h
    have := tokNextCore_length h
    omega

theorem tokenizeF_irrel : ∀ f g : Nat, ∀ s : List Char,
    s.length < f → s.length < g → tokenizeF f s = tokenizeF g s := by
  intro f
  induction f with
  | zero => intro g s hf; omega
  | succ f ih =>
    intro g s hf hg
    obtain ⟨g', rfl⟩ : ∃ g', g = g' + 1 := ⟨g - 1, by omega⟩
    simp only [tokenizeF]
    cases h : tokNext s with
    | none => rfl
    | some r =>
      cases r with
      | error e => rfl
      | ok p =>
        obtain ⟨t, rest⟩ := p
        have hlen := tokNext_length h
        show (tokenizeF f rest).map _ = (tokenizeF g' rest).map _
        rw [ih g' rest (by omega) (by omega)]

theorem tokenizeF_ne_none : ∀ f : Nat, ∀ s : List Char,
    s.length < f → tokenizeF f s ≠ none := by
  intro f
  induction f with
  | zero => intro s hf; omega
  | succ f ih =>
    intro s hf
    simp only [tokenizeF]
    cases h : tokNext s with
    | none => simp
    | some r =>
      cases r with
      | error e => simp
      | ok p =>
        obtain ⟨t, rest⟩ := p
        have hlen := tokNext_length h
        show (tokenizeF f rest).map _ ≠ none
        cases htf : tokenizeF f rest with
        | none => exact absurd htf (ih rest (by omega))
        | some r => simp

/-- For any sufficient fuel, `tokenizeF` computes `tokenize`. -/
theorem tokenizeF_eq_tokenize {f : Nat} {s : List Char} (hf : s.length < f) :
    tokenizeF f s = some (tokenize s) := by
  rw [tokenizeF_irrel f (s.length + 1) s hf (by omega)]
  unfold tokenize
  cases h : tokenizeF (s.length + 1) s with
  | none => exact absurd h (tokenizeF_ne_none _ s (by omega))
  | some r => rfl

/-- `Expression` (parser.rs): the AST produced by parsing.  `Grouping`
marks a parenthesized sub-expression and is preserved in the tree. -/
inductive Expression where
  | number (value : ℚ)
  | add (left right : Expression)
  | subtract (left right : Expression)
  | multiply (left right : Expression)
  | divide (left right : Expression)
  | negate (operand : Expression)
  | grouping (operand : Expression)

deriving instance DecidableEq for Expression

/-- `ParserError` (parser.rs): a tokenizing error wrapped at
construction, or a grammar violation with a message. -/
inductive ParserError where
  | unexpectedToken (e : TokenizingError)
  | syntaxError (msg : String)

deriving instance DecidableEq for ParserError

/-- The `Display` rendering of `ParserError`: both variants carry the
`"Syntax error: "` prefix (the wrapped variant displays the inner
tokenizing error after it). -/
def ParserError.display : ParserError → String
  | .unexpectedToken e => "Syntax error: " ++ e.message
  | .syntaxError m => "Syntax error: " ++ m

/-- The parser's mutually recursive procedures (`expression`, `term`,
`factor`, `unary`, `primary`) together with the two continuation loops
inside `term` and `factor`, presented as modes of a single fuel-indexed
step function (`termLoop`/`factorLoop` carry the expression accumulated
so far, as the `expression` local variable does in the Rust loops). -/
inductive PMode where
  | expr
  | term
  | factor
  | unary
  | primary
  | termLoop (acc : Expression)
  | factorLoop (acc : Expression)

/-- Outcome of one parser procedure: the built expression together with
the tokens not yet consumed (the cursor position), or a `ParserError`. -/
abbrev PResult := Except ParserError (Expression × List Token)

/-- The recursive-descent parser (parser.rs), over the pre-tokenized
list.  The cursor index becomes the list of remaining tokens; the
mutable `bracket_count` field becomes the `brackets` argument (its
increments and decrements are balanced on every path that continues
parsing, so its current value is always the value passed down).  The
fuel only makes the recursion structural: every cycle through the modes
consumes at least one token, so the fuel bound proved in `runP_ne_none`
below is never exhausted. -/
def runP : Nat → PMode → List Token → Nat → Option PResult
  | 0, _, _, _ => none
  | fuel + 1, mode, toks, brackets =>
    match mode with
    | .expr => runP fuel .term toks brackets
    | .term =>
      match runP fuel .factor toks brackets with
      | some (.ok (e, rest)) => runP fuel (.termLoop e) rest brackets
      | r => r
    | .termLoop e =>
      match toks with
      | .plus :: rest =>
        match runP fuel .factor rest brackets with
        | some (.ok (right, rest')) =>
          runP fuel (.termLoop (.add e right)) rest' brackets
        | r => r
      | .minus :: rest =>
        match runP fuel .factor rest brackets with
        | some (.ok (right, rest')) =>
          runP fuel (.termLoop (.subtract e right)) rest' brackets
        | r => r
      | .rightParen :: _ =>
        if brackets = 0 then some (.error (.syntaxError "Too many ')'."))
        else some (.ok (e, toks))
      | .leftParen :: _ =>
        if brackets = 0 then some (.error (.syntaxError "Unexpected '('."))
        else some (.ok (e, toks))
      | _ => some (.ok (e, toks))
    | .factor =>
      match runP fuel .unary toks brackets with
      | some (.ok (e, rest)) => runP fuel (.factorLoop e) rest brackets
      | r => r
    | .factorLoop e =>
      match toks with
      | .star :: rest =>
        match runP fuel .unary rest brackets with
        | some (.ok (right, rest')) =>
          runP fuel (.factorLoop (.multiply e right)) rest' brackets
        | r => r
      | .slash :: rest =>
        match runP fuel .unary rest brackets with
        | some (.ok (right, rest')) =>
          runP fuel (.factorLoop (.divide e right)) rest' brackets
        | r => r
      | .rightParen :: _ =>
        if brackets = 0 then some (.error (.syntaxError "Too many ')'."))
        else some (.ok (e, toks))
      | _ => some (.ok (e, toks))
    | .unary =>
      match toks with
      | .minus :: rest =>
        match runP fuel .unary rest brackets with
        | some (.ok (e, rest')) => some (.ok (.negate e, rest'))
        | r => r
      | _ => runP fuel .primary toks brackets
    | .primary =>
      match toks with
      | .number q :: rest => some (.ok (.number q, rest))
      | .leftParen :: rest =>
        match runP fuel .expr rest (brackets + 1) with
        | some (.ok (e, rest')) =>
          match rest' with
          | .rightParen :: rest'' => some (.ok (.grouping e, rest''))
          | _ => some (.error (.syntaxError "Expect ')' after expression."))
        | r => r
      | _ => some (.error (.syntaxError "Expected number or '('."))

/-- A successful parser procedure never adds tokens: the remainder is at
most as long as its input. -/
theorem runP_length : ∀ fuel : Nat, ∀ mode toks brackets e rest,
    runP fuel mode toks brackets = some (.ok (e, rest)) →
    rest.length ≤ toks.length := by
  intro fuel
  induction fuel with
  | zero => intro mode toks b e rest h; exact absurd h (by simp [runP])
  | succ fuel ih =>
    intro mode toks b e rest h
    cases mode with
    | expr => exact ih _ _ _ _ _ h
    | term =>
      rw [show runP (fuel + 1) .term toks b =
            (match runP fuel .factor toks b with
             | some (.ok (e, rest)) => runP fuel (.termLoop e) rest b
             | r => r) from rfl] at h
      split at h
      · next e₁ r₁ heq =>
          exact Nat.le_trans (ih _ _ _ _ _ h) (ih _ _ _ _ _ heq)
      · next hne =>
              exact (hne e rest h).elim
    | factor =>
      rw [show runP (fuel + 1) .factor toks b =
            (match runP fuel .unary toks b with
             | some (.ok (e, rest)) => runP fuel (.factorLoop e) rest b
             | r => r) from rfl] at h
      split at h
      · next e₁ r₁ heq =>
          exact Nat.le_trans (ih _ _ _ _ _ h) (ih _ _ _ _ _ heq)
      · next hne =>
              exact (hne e rest h).elim
    | termLoop acc =>
      cases toks with
      | nil =>
        simp only [runP, Option.some.injEq, Except.ok.injEq, Prod.mk.injEq] at h
        obtain ⟨_, rfl⟩ := h
        exact Nat.le_refl _
      | cons t tail =>
        cases t with
        | plus =>
          rw [show runP (fuel + 1) (.termLoop acc) (.plus :: tail) b =
                (match runP fuel .factor tail b with
                 | some (.ok (right, rest')) =>
                   runP fuel (.termLoop (.add acc right)) rest' b
                 | r => r) from rfl] at h
          split at h
          · next e₁ r₁ heq =>
              have := Nat.le_trans (ih _ _ _ _ _ h) (ih _ _ _ _ _ heq)
              simp only [List.length_cons]
              omega
          · next hne =>
              exact (hne e rest h).elim
        | minus =>
          rw [show runP (fuel + 1) (.termLoop acc) (.minus :: tail) b =
                (match runP fuel .factor tail b with
                 | some (.ok (right, rest')) =>
                   runP fuel (.termLoop (.subtract acc right)) rest' b
                 | r => r) from rfl] at h
          split at h
          · next e₁ r₁ heq =>
              have := Nat.le_trans (ih _ _ _ _ _ h) (ih _ _ _ _ _ heq)
              simp only [List.length_cons]
              omega
          · next hne =>
              exact (hne e rest h).elim
        | rightParen =>
          simp only [runP] at h
          split at h <;>
            simp only [Option.some.injEq, Except.ok.injEq, Prod.mk.injEq,
              reduceCtorEq] at h
          obtain ⟨_, rfl⟩ := h
          exact Nat.le_refl _
        | leftParen =>
          simp only [runP] at h
          split at h <;>
            simp only [Option.some.injEq, Except.ok.injEq, Prod.mk.injEq,
              reduceCtorEq] at h
          obtain ⟨_, rfl⟩ := h
          exact Nat.le_refl _
        | star =>
          simp only [runP, Option.some.injEq, Except.ok.injEq, Prod.mk.injEq] at h
          obtain ⟨_, rfl⟩ := h
          exact Nat.le_refl _
        | slash =>
          simp only [runP, Option.some.injEq, Except.ok.injEq, Prod.mk.injEq] at h
          obtain ⟨_, rfl⟩ := h
          exact Nat.le_refl _
        | number q =>
          simp only [runP, Option.some.injEq, Except.ok.injEq, Prod.mk.injEq] at h
          obtain ⟨_, rfl⟩ := h
          exact Nat.le_refl _
    | factorLoop acc =>
      cases toks with
      | nil =>
        simp only [runP, Option.some.injEq, Except.ok.injEq, Prod.mk.injEq] at h
        obtain ⟨_, rfl⟩ := h
        exact Nat.le_refl _
      | cons t tail =>
        cases t with
        | star =>
          rw [show runP (fuel + 1) (.factorLoop acc) (.star :: tail) b =
                (match runP fuel .unary tail b with
                 | some (.ok (right, rest')) =>
                   runP fuel (.factorLoop (.multiply acc right)) rest' b
                 | r => r) from rfl] at h
          split at h
          · next e₁ r₁ heq =>
              have := Nat.le_trans (ih _ _ _ _ _ h) (ih _ _ _ _ _ heq)
              simp only [List.length_cons]
              omega
          · next hne =>
              exact (hne e rest h).elim
        | slash =>
          rw [show runP (fuel + 1) (.factorLoop acc) (.slash :: tail) b =
                (match runP fuel .unary tail b with
                 | some (.ok (right, rest')) =>
                   runP fuel (.factorLoop (.divide acc right)) rest' b
                 | r => r) from rfl] at h
          split at h
          · next e₁ r₁ heq =>
              have := Nat.le_trans (ih _ _ _ _ _ h) (ih _ _ _ _ _ heq)
              simp only [List.length_cons]
              omega
          · next hne =>
              exact (hne e rest h).elim
        | rightParen =>
          simp only [runP] at h
          split at h <;>
            simp only [Option.some.injEq, Except.ok.injEq, Prod.mk.injEq,
              reduceCtorEq] at h
          obtain ⟨_, rfl⟩ := h
          exact Nat.le_refl _
        | plus =>
          simp only [runP, Option.some.injEq, Except.ok.injEq, Prod.mk.injEq] at h
          obtain ⟨_, rfl⟩ := h
          exact Nat.le_refl _
        | minus =>
          simp only [runP, Option.some.injEq, Except.ok.injEq, Prod.mk.injEq] at h
          obtain ⟨_, rfl⟩ := h
          exact Nat.le_refl _
        | leftParen =>
          simp only [runP, Option.some.injEq, Except.ok.injEq, Prod.mk.injEq] at h
          obtain ⟨_, rfl⟩ := h
          exact Nat.le_refl _
        | number q =>
          simp only [runP, Option.some.injEq, Except.ok.injEq, Prod.mk.injEq] at h
          obtain ⟨_, rfl⟩ := h
          exact Nat.le_refl _
    | unary =>
      cases toks with
      | nil => exact ih _ _ _ _ _ h
      | cons t tail =>
        cases t with
        | minus =>
          rw [show runP (fuel + 1) .unary (.minus :: tail) b =
                (match runP fuel .unary tail b with
                 | some (.ok (e, rest')) => some (.ok (.negate e, rest'))
                 | r => r) from rfl] at h
          split at h
          · next e₁ r₁ heq =>
              simp only [Option.some.injEq, Except.ok.injEq, Prod.mk.injEq] at h
              obtain ⟨_, rfl⟩ := h
              have := ih _ _ _ _ _ heq
              simp only [List.length_cons]
              omega
          · next hne =>
              exact (hne e rest h).elim
        | plus => exact ih _ _ _ _ _ h
        | star => exact ih _ _ _ _ _ h
        | slash => exact ih _ _ _ _ _ h
        | leftParen => exact ih _ _ _ _ _ h
        | rightParen => exact ih _ _ _ _ _ h
        | number q => exact ih _ _ _ _ _ h
    | primary =>
      cases toks with
      | nil => exact absurd h (by simp [runP])
      | cons t tail =>
        cases t with
        | number q =>
          simp only [runP, Option.some.injEq, Except.ok.injEq, Prod.mk.injEq] at h
          obtain ⟨_, rfl⟩ := h
          exact Nat.le_succ_of_le (Nat.le_refl _)
        | leftParen =>
          rw [show runP (fuel + 1) .primary (.leftParen :: tail) b =
                (match runP fuel .expr tail (b + 1) with
                 | some (.ok (e, rest')) =>
                   match rest' with
                   | .rightParen :: rest'' => some (.ok (.grouping e, rest''))
                   | _ => some (.error (.syntaxError "Expect ')' after expression."))
                 | r => r) from rfl] at h
          split at h
          · next e₁ r₁ heq =>
              have hr₁ := ih _ _ _ _ _ heq
              split at h <;>
                simp only [Option.some.injEq, Except.ok.injEq, Prod.mk.injEq,
                  reduceCtorEq] at h
              obtain ⟨_, rfl⟩ := h
              simp only [List.length_cons] at hr₁ ⊢
              omega
          · next hne =>
              exact (hne e rest h).elim
        | plus => exact absurd h (by simp [runP])
        | minus => exact absurd h (by simp [runP])
        | star => exact absurd h (by simp [runP])
        | slash => exact absurd h (by simp [runP])
        | rightParen => exact absurd h (by simp [runP])

/-- Depth rank of a parser mode within one token-consuming cycle of the
call graph (`expr → term → factor → unary → primary` and the loops). -/
def pRank : PMode → Nat
  | .primary => 1
  | .unary => 2
  | .factorLoop _ => 3
  | .factor => 4
  | .termLoop _ => 5
  | .term => 6
  | .expr => 7

/-- Fuel sufficiency: recursion depth grows only along the mode ranks
within a cycle, and every cycle consumes a token, so the parser never
runs out of fuel `8 * toks.length + pRank mode + 1` or more. -/
theorem runP_ne_none : ∀ fuel : Nat, ∀ mode toks brackets,
    pRank mode + 8 * toks.length < fuel →
    runP fuel mode toks brackets ≠ none := by
  intro fuel
  induction fuel with
  | zero => intro mode toks b hf; simp [pRank] at hf
  | succ fuel ih =>
    intro mode toks b hf
    cases mode with
    | expr =>
      show runP fuel .term toks b ≠ none
      exact ih .term toks b (by simp [pRank] at hf ⊢; omega)
    | term =>
      show (match runP fuel .factor toks b with
            | some (.ok (e, rest)) => runP fuel (.termLoop e) rest b
            | r => r) ≠ none
      cases hr : runP fuel .factor toks b with
      | none => exact absurd hr (ih .factor toks b (by simp [pRank] at hf ⊢; omega))
      | some v =>
        cases v with
        | error er => simp
        | ok p =>
          obtain ⟨e, rest⟩ := p
          have hlen := runP_length fuel .factor toks b e rest hr
          exact ih (.termLoop e) rest b (by simp [pRank] at hf ⊢; omega)
    | factor =>
      show (match runP fuel .unary toks b with
            | some (.ok (e, rest)) => runP fuel (.factorLoop e) rest b
            | r => r) ≠ none
      cases hr : runP fuel .unary toks b with
      | none => exact absurd hr (ih .unary toks b (by simp [pRank] at hf ⊢; omega))
      | some v =>
        cases v with
        | error er => simp
        | ok p =>
          obtain ⟨e, rest⟩ := p
          have hlen := runP_length fuel .unary toks b e rest hr
          exact ih (.factorLoop e) rest b (by simp [pRank] at hf ⊢; omega)
    | termLoop acc =>
      cases toks with
      | nil => simp [runP]
      | cons t tail =>
        simp only [pRank, List.length_cons] at hf
        cases t with
        | plus =>
          show (match runP fuel .factor tail b with
                | some (.ok (right, rest')) =>
                  runP fuel (.termLoop (.add acc right)) rest' b
                | r => r) ≠ none
          cases hr : runP fuel .factor tail b with
          | none => exact absurd hr (ih .factor tail b (by simp [pRank]; omega))
          | some v =>
            cases v with
            | error er => simp
            | ok p =>
              obtain ⟨e, rest⟩ := p
              have hlen := runP_length fuel .factor tail b e rest hr
              exact ih (.termLoop (.add acc e)) rest b (by simp [pRank]; omega)
        | minus =>
          show (match runP fuel .factor tail b with
                | some (.ok (right, rest')) =>
                  runP fuel (.termLoop (.subtract acc right)) rest' b
                | r => r) ≠ none
          cases hr : runP fuel .factor tail b with
          | none => exact absurd hr (ih .factor tail b (by simp [pRank]; omega))
          | some v =>
            cases v with
            | error er => simp
            | ok p =>
              obtain ⟨e, rest⟩ := p
              have hlen := runP_length fuel .factor tail b e rest hr
              exact ih (.termLoop (.subtract acc e)) rest b (by simp [pRank]; omega)
        | rightParen =>
          show (if b = 0 then _ else _) ≠ none
          split <;> simp
        | leftParen =>
          show (if b = 0 then _ else _) ≠ none
          split <;> simp
        | star => simp [runP]
        | slash => simp [runP]
        | number q => simp [runP]
    | factorLoop acc =>
      cases toks with
      | nil => simp [runP]
      | cons t tail =>
        simp only [pRank, List.length_cons] at hf
        cases t with
        | star =>
          show (match runP fuel .unary tail b with
                | some (.ok (right, rest')) =>
                  runP fuel (.factorLoop (.multiply acc right)) rest' b
                | r => r) ≠ none
          cases hr : runP fuel .unary tail b with
          | none => exact absurd hr (ih .unary tail b (by simp [pRank]; omega))
          | some v =>
            cases v with
            | error er => simp
            | ok p =>
              obtain ⟨e, rest⟩ := p
              have hlen := runP_length fuel .unary tail b e rest hr
              exact ih (.factorLoop (.multiply acc e)) rest b (by simp [pRank]; omega)
        | slash =>
          show (match runP fuel .unary tail b with
                | some (.ok (right, rest')) =>
                  runP fuel (.factorLoop (.divide acc right)) rest' b
                | r => r) ≠ none
          cases hr : runP fuel .unary tail b with
          | none => exact absurd hr (ih .unary tail b (by simp [pRank]; omega))
          | some v =>
            cases v with
            | error er => simp
            | ok p =>
              obtain ⟨e, rest⟩ := p
              have hlen := runP_length fuel .unary tail b e rest hr
              exact ih (.factorLoop (.divide acc e)) rest b (by simp [pRank]; omega)
        | rightParen =>
          show (if b = 0 then _ else _) ≠ none
          split <;> simp
        | plus => simp [runP]
        | minus => simp [runP]
        | leftParen => simp [runP]
        | number q => simp [runP]
    | unary =>
      cases toks with
      | nil =>
        show runP fuel .primary [] b ≠ none
        exact ih .primary [] b (by simp [pRank] at hf ⊢; omega)
      | cons t tail =>
        simp only [pRank, List.length_cons] at hf
        cases t with
        | minus =>
          show (match runP fuel .unary tail b with
                | some (.ok (e, rest')) => some (.ok (.negate e, rest'))
                | r => r) ≠ none
          cases hr : runP fuel .unary tail b with
          | none => exact absurd hr (ih .unary tail b (by simp [pRank]; omega))
          | some v =>
            cases v with
            | error er => simp
            | ok p => simp
        | plus =>
          show runP fuel .primary (.plus :: tail) b ≠ none
          exact ih .primary _ b (by simp [pRank]; omega)
        | star =>
          show runP fuel .primary (.star :: tail) b ≠ none
          exact ih .primary _ b (by simp [pRank]; omega)
        | slash =>
          show runP fuel .primary (.slash :: tail) b ≠ none
          exact ih .primary _ b (by simp [pRank]; omega)
        | leftParen =>
          show runP fuel .primary (.leftParen :: tail) b ≠ none
          exact ih .primary _ b (by simp [pRank]; omega)
        | rightParen =>
          show runP fuel .primary (.rightParen :: tail) b ≠ none
          exact ih .primary _ b (by simp [pRank]; omega)
        | number q =>
          show runP fuel .primary (.number q :: tail) b ≠ none
          exact ih .primary _ b (by simp [pRank]; omega)
    | primary =>
      cases toks with
      | nil => simp [runP]
      | cons t tail =>
        simp only [pRank, List.length_cons] at hf
        cases t with
        | number q => simp [runP]
        | leftParen =>
          show (match runP fuel .expr tail (b + 1) with
                | some (.ok (e, rest')) =>
                  match rest' with
                  | .rightParen :: rest'' => some (.ok (.grouping e, rest''))
                  | _ => some (.error (.syntaxError "Expect ')' after expression."))
                | r => r) ≠ none
          cases hr : runP fuel .expr tail (b + 1) with
          | none => exact absurd hr (ih .expr tail (b + 1) (by simp [pRank]; omega))
          | some v =>
            cases v with
            | error er => simp
            | ok p =>
              obtain ⟨e, rest⟩ := p
              cases rest with
              | nil => simp
              | cons r rtail => cases r <;> simp
        | plus => simp [runP]
        | minus => simp [runP]
        | star => simp [runP]
        | slash => simp [runP]
        | rightParen => simp [runP]

/-- The fuel `parse` runs with; by `runP_ne_none` it is never exhausted
(`pRank .expr + 8 * toks.length < 8 * toks.length + 10`). -/
def parseFuel (toks : List Token) : Nat := 8 * toks.length + 10

/-- `Parser::parse` on a pre-tokenized input (the `expression` entry
production, starting at cursor 0 with `bracket_count = 0`).  The parsed
`Expression` is returned and any unconsumed trailing tokens are
discarded, exactly as the Rust `parse` returns only the expression. -/
def parseToks (toks : List Token) : Except ParserError Expression :=
  match h : runP (parseFuel toks) .expr toks 0 with
  | some (.ok (e, _)) => .ok e
  | some (.error err) => .error err
  | none =>
    absurd h (runP_ne_none _ .expr toks 0 (by simp [pRank, parseFuel]; omega))

/-- `Parser::new`: eagerly tokenize the whole input; a tokenizing error
fails construction, wrapped as `ParserError::UnexpectedToken` by the
`#[from]` conversion. -/
def parserNew (s : List Char) : Except ParserError (List Token) :=
  match tokenize s with
  | .ok ts => .ok ts
  | .error e => .error (.unexpectedToken e)

/-- `Parser::new` followed by `parse()`: the full string-to-AST path. -/
def parseStr (s : List Char) : Except ParserError Expression :=
  match parserNew s with
  | .ok ts => parseToks ts
  | .error e => .error e

/-- `EvaluatorError` (visitors.rs): a message string. -/
structure EvaluatorError where
  message : String

deriving instance DecidableEq for EvaluatorError

/-- The `Evaluator` visitor (visitors.rs), written as the structural
recursion its `visit_expression` dispatch performs.  `visit_add`,
`visit_subtract` and `visit_multiply` evaluate the left child first;
`visit_divide` evaluates the right child first, fails when its value is
exactly `0.0` (`right_value == 0.0`), and otherwise evaluates the left
child and then the right child a second time, exactly as the source's
final `Ok(left? / right?)` expression does. -/
def evalE : Expression → Except EvaluatorError ℚ
  | .number v => .ok v
  | .add a b =>
    match evalE a with
    | .error e => .error e
    | .ok x =>
      match evalE b with
      | .error e => .error e
      | .ok y => .ok (x + y)
  | .subtract a b =>
    match evalE a with
    | .error e => .error e
    | .ok x =>
      match evalE b with
      | .error e => .error e
      | .ok y => .ok (x - y)
  | .multiply a b =>
    match evalE a with
    | .error e => .error e
    | .ok x =>
      match evalE b with
      | .error e => .error e
      | .ok y => .ok (x * y)
  | .divide a b =>
    match evalE b with
    | .error e => .error e
    | .ok rv =>
      if rv = 0 then .error ⟨"Division by zero"⟩
      else
        match evalE a with
        | .error e => .error e
        | .ok x =>
          match evalE b with
          | .error e => .error e
          | .ok y => .ok (x / y)
  | .negate a =>
    match evalE a with
    | .error e => .error e
    | .ok x => .ok (-x)
  | .grouping a => evalE a

/-- Decimal digits of a natural number, fuel-indexed (fuel `n + 1`
always suffices since `n / 10 < n` for `n ≥ 10`). -/
def natChars : Nat → Nat → List Char
  | 0, _ => []
  | fuel + 1, n =>
    if n < 10 then [Char.ofNat ('0'.toNat + n)]
    else natChars fuel (n / 10) ++ [Char.ofNat ('0'.toNat + n % 10)]

/-- Decimal digits of a natural number, most significant first. -/
def natStr (n : Nat) : List Char := natChars (n + 1) n

/-- Smallest exponent `k ≤ d` with `d ∣ 10 ^ k`, if one exists (it does
exactly when `d` has no prime factors besides 2 and 5, i.e. when `n / d`
has a finite decimal expansion). -/
def decExp (d : Nat) : Option Nat :=
  (List.range (d + 1)).find? (fun k => decide (d ∣ 10 ^ k))

/-- Model of Rust `f64::to_string` (the `Display` rendering used by
`visit_number` of the pretty printer) on the values it is applied to:
a value with a finite decimal expansion prints as its shortest decimal
form — no trailing fractional zeros, no `.0` on integers, a leading
`0` before a lone fraction, and a `-` sign for negatives.  Values whose
denominator is not of the form `2^a * 5^b` cannot arise from decimal
literals and are given an arbitrary fallback rendering. -/
def numToString (q : ℚ) : List Char :=
  let sgn : List Char := if q.num < 0 then ['-'] else []
  let n := q.num.natAbs
  match decExp q.den with
  | some k =>
    let m := n * (10 ^ k / q.den)
    let frac := natStr (m % 10 ^ k)
    sgn ++ natStr (m / 10 ^ k) ++
      (if k = 0 then []
       else '.' :: (List.replicate (k - frac.length) '0' ++ frac))
  | none => sgn ++ natStr n ++ ('/' :: natStr q.den)

/-- The `PrettyPrinterVisitor` (visitors.rs): `Number` prints via
`Display`, binary nodes as `"{left} {op} {right}"` with single spaces,
`Negate` as `"-{operand}"`, `Grouping` as `"({operand})"`.  Its Rust
error type is `()` and it never fails, so it is a total function. -/
def renderChars : Expression → List Char
  | .number v => numToString v
  | .add a b => renderChars a ++ (' ' :: '+' :: ' ' :: renderChars b)
  | .subtract a b => renderChars a ++ (' ' :: '-' :: ' ' :: renderChars b)
  | .multiply a b => renderChars a ++ (' ' :: '*' :: ' ' :: renderChars b)
  | .divide a b => renderChars a ++ (' ' :: '/' :: ' ' :: renderChars b)
  | .negate a => '-' :: renderChars a
  | .grouping a => '(' :: (renderChars a ++ [')'])

/-- The pretty-printed text as a `String`. -/
def render (e : Expression) : String := ⟨renderChars e⟩

theorem isDigit_ne_ops {c : Char} (h : c.isDigit = true) :
    c ≠ ' ' ∧ c ≠ '+' ∧ c ≠ '-' ∧ c ≠ '*' ∧ c ≠ '/' ∧ c ≠ '(' ∧ c ≠ ')' := by
  refine ⟨?_, ?_, ?_, ?_, ?_, ?_, ?_⟩ <;>
    (intro he; subst he; exact absurd h (by decide))

/-- Claim C1 as stated is false at its own input: the parse tree of
`"2 * 4 + 6 / 2"` is `Add(Multiply(2,4), Divide(6,2))`, and the
`Evaluator` does not produce `10.0` on it. -/
theorem C1_counterexample :
    parseStr "2 * 4 + 6 / 2".data =
      .ok (.add (.multiply (.number 2) (.number 4))
                (.divide (.number 6) (.number 2)))
    ∧ evalE (.add (.multiply (.number 2) (.number 4))
                  (.divide (.number 6) (.number 2))) ≠ .ok 10 := by
  refine ⟨by decide, fun h => ?_⟩
  rw [show evalE (.add (.multiply (.number 2) (.number 4))
        (.divide (.number 6) (.number 2))) = .ok 11 from by norm_num [evalE]] at h
  simp only [Except.ok.injEq] at h
  norm_num at h

/-- Claim C1, amended: for the input string `"2 * 4 + 6 / 2"`,
constructing a `Parser`, calling `parse()`, and evaluating the resulting
`Expression` with the `Evaluator` yields `11.0` (not `10.0`):
multiplication and division bind tighter than addition, so the tree is
`Add(Multiply(2,4), Divide(6,2))` and its value is `8 + 3 = 11`. -/
theorem C1_precedence :
    parseStr "2 * 4 + 6 / 2".data =
      .ok (.add (.multiply (.number 2) (.number 4))
                (.divide (.number 6) (.number 2)))
    ∧ evalE (.add (.multiply (.number 2) (.number 4))
                  (.divide (.number 6) (.number 2))) = .ok 11 :=
  ⟨by decide, by norm_num [evalE]⟩

/-- Claim C2: binary operators are left-associative: `"1 * 2 * 3"`
parses to `Multiply(Multiply(1,2),3)`; `"1 - 2 - 3"` parses to
`Subtract(Subtract(1,2),3)` which evaluates to `-4.0`; and in general
each additional `(op, operand)` pair wraps the previous expression as
the left operand of the new binary node (shown for `*` chains with
arbitrary numeric values). -/
theorem C2_left_associativity :
    parseStr "1 * 2 * 3".data =
      .ok (.multiply (.multiply (.number 1) (.number 2)) (.number 3))
    ∧ parseStr "1 - 2 - 3".data =
      .ok (.subtract (.subtract (.number 1) (.number 2)) (.number 3))
    ∧ evalE (.subtract (.subtract (.number 1) (.number 2)) (.number 3)) = .ok (-4)
    ∧ ∀ q₁ q₂ q₃ : ℚ,
        parseToks [.number q₁, .star, .number q₂, .star, .number q₃] =
          .ok (.multiply (.multiply (.number q₁) (.number q₂)) (.number q₃)) :=
  ⟨by decide, by decide, by norm_num [evalE], fun q₁ q₂ q₃ => rfl⟩

/-- Claim C3 as stated is false: a `Divide` node can return the
`"Division by zero"` error although its right child does not evaluate to
`0.0` — when the right child itself fails (its error, necessarily that
same message, is propagated).  Concretely with right child
`Divide(1, 0)`. -/
theorem C3_counterexample :
    evalE (.divide (.number 1) (.divide (.number 1) (.number 0))) =
      .error ⟨"Division by zero"⟩
    ∧ evalE (.divide (.number 1) (.number 0)) ≠ .ok 0 := by
  constructor <;> decide

/-- Claim C3, amended: for every `Divide(left, right)` node the
`Evaluator` evaluates the right child first; if it evaluates to exactly
`0.0` (compared with `==`, no epsilon) the node fails with
`"Division by zero"` and the left child is never evaluated (the result
does not depend on `left` in any way); if the right child evaluates to a
nonzero value the result is the quotient, with the left child's error
propagated; and if the right child itself fails, that error (which is
itself a division-by-zero error, the only error the evaluator produces)
is propagated. -/
theorem C3_divide_semantics : ∀ l r : Expression,
    (evalE r = .ok 0 → evalE (.divide l r) = .error ⟨"Division by zero"⟩)
    ∧ (∀ v : ℚ, evalE r = .ok v → v ≠ 0 →
        evalE (.divide l r) = (evalE l).map (fun x => x / v))
    ∧ (∀ err : EvaluatorError, evalE r = .error err →
        evalE (.divide l r) = .error err) := by
  intro l r
  refine ⟨fun h => ?_, fun v hv hne => ?_, fun err herr => ?_⟩
  · simp only [evalE]
    rw [h]
    simp
  · cases hl : evalE l with
    | error e => simp [evalE, hv, hne, hl, Except.map]
    | ok x => simp [evalE, hv, hne, hl, Except.map]
  · simp only [evalE]
    rw [herr]

theorem C3_divide_semantics_witness :
    evalE (.divide (.number 1) (.number 0)) = .error ⟨"Division by zero"⟩
    ∧ evalE (.divide (.number 1) (.number 2)) =
        (evalE (.number 1)).map (fun x => x / 2)
    ∧ evalE (.divide (.number 1) (.divide (.number 1) (.number 0))) =
        .error ⟨"Division by zero"⟩ :=
  ⟨(C3_divide_semantics (.number 1) (.number 0)).1 rfl,
   (C3_divide_semantics (.number 1) (.number 2)).2.1 2 rfl (by decide),
   (C3_divide_semantics (.number 1) (.divide (.number 1) (.number 0))).2.2
     ⟨"Division by zero"⟩ (by decide)⟩

/-- Claim C5: the parser's bracket violations.  At nesting depth zero a
`)` in the `term` or `factor` continuation loop fails with
`"Too many ')'."` and a `(` in the `term` continuation loop fails with
`"Unexpected '('."` (shown on the loop procedures for arbitrary
accumulated expression and remaining tokens); concretely, `"(1))"` and
`"(1))+2"` fail with `"Too many ')'."`, `"1 (1)"` fails with
`"Unexpected '('."`, and an unmatched `(` as in `"(1"` fails with
`"Expect ')' after expression."`. -/
theorem C5_bracket_errors :
    (∀ (e : Expression) (toks : List Token) (fuel : Nat),
      runP (fuel + 1) (.termLoop e) (.rightParen :: toks) 0 =
        some (.error (.syntaxError "Too many ')'.")))
    ∧ (∀ (e : Expression) (toks : List Token) (fuel : Nat),
      runP (fuel + 1) (.factorLoop e) (.rightParen :: toks) 0 =
        some (.error (.syntaxError "Too many ')'.")))
    ∧ (∀ (e : Expression) (toks : List Token) (fuel : Nat),
      runP (fuel + 1) (.termLoop e) (.leftParen :: toks) 0 =
        some (.error (.syntaxError "Unexpected '('.")))
    ∧ parseStr "(1))".data = .error (.syntaxError "Too many ')'.")
    ∧ parseStr "(1))+2".data = .error (.syntaxError "Too many ')'.")
    ∧ parseStr "1 (1)".data = .error (.syntaxError "Unexpected '('.")
    ∧ parseStr "(1".data = .error (.syntaxError "Expect ')' after expression.") :=
  ⟨fun e toks fuel => rfl, fun e toks fuel => rfl, fun e toks fuel => rfl,
   by decide, by decide, by decide, by decide⟩

/-- Claim C6: `Parser::new` eagerly tokenizes the whole input and fails
at construction whenever tokenization fails, wrapping the tokenizing
error as `ParserError::UnexpectedToken`; both parser error variants
display with the `"Syntax error: "` prefix, so `Parser::new("2#")` fails
with display text `"Syntax error: Unexpected token '#'"`. -/
theorem C6_eager_tokenization :
    (∀ (s : List Char) (e : TokenizingError),
      tokenize s = .error e → parserNew s = .error (.unexpectedToken e))
    ∧ (∀ e : TokenizingError,
        (ParserError.unexpectedToken e).display = "Syntax error: " ++ e.message)
    ∧ (∀ m : String, (ParserError.syntaxError m).display = "Syntax error: " ++ m)
    ∧ parserNew "2#".data = .error (.unexpectedToken (.invalidCharacter '#'))
    ∧ (ParserError.unexpectedToken (.invalidCharacter '#')).display =
        "Syntax error: Unexpected token '#'" :=
  ⟨fun s e h => by simp [parserNew, h], fun e => rfl, fun m => rfl,
   by decide, by decide⟩

theorem C6_eager_tokenization_witness :
    tokenize "2#".data = .error (.invalidCharacter '#')
    ∧ parserNew "2#".data = .error (.unexpectedToken (.invalidCharacter '#')) :=
  ⟨by decide,
   C6_eager_tokenization.1 "2#".data (.invalidCharacter '#') (by decide)⟩

/-- Claim C7: the tokenizer skips only the literal space character
between tokens; any character that is not a space, an operator or
bracket, or an ASCII digit yields `InvalidCharacter` carrying exactly
that character; end of input exhausts the iterator rather than erroring. -/
theorem C7_tokenizer_characters :
    (∀ s : List Char, tokNext (' ' :: s) = tokNext s)
    ∧ (∀ (c : Char) (s : List Char),
        c ∉ ([' ', '+', '-', '*', '/', '(', ')'] : List Char) →
        c.isDigit = false →
        tokNext (c :: s) = some (.error (.invalidCharacter c)))
    ∧ tokNext ([] : List Char) = none := by
  refine ⟨fun s => rfl, fun c s hmem hdig => ?_, rfl⟩
  simp only [List.mem_cons, List.mem_singleton, not_or] at hmem
  obtain ⟨h1, h2, h3, h4, h5, h6, h7⟩ := hmem
  simp [tokNext, skipSpaces, tokNextCore, h1, h2, h3, h4, h5, h6, h7, hdig]

theorem C7_tokenizer_characters_witness :
    ('\t' ∉ ([' ', '+', '-', '*', '/', '(', ')'] : List Char))
    ∧ ('\t'.isDigit = false)
    ∧ tokNext ['\t'] = some (.error (.invalidCharacter '\t')) :=
  ⟨by decide, by decide,
   C7_tokenizer_characters.2.1 '\t' [] (by decide) (by decide)⟩

/-- Claim C8: on a digit, `tokenize_number` greedily consumes the
longest following run of ASCII digits and `'.'` characters (it does not
reject multiple dots during accumulation), and the tokenizer yields
`InvalidNumber` if and only if the accumulated text fails to parse as a
float; `"1...."` and `"1.324.3"` tokenize to that error, whose display
text is `"Invalid number format"`. -/
theorem C8_number_scanning :
    (∀ s : List Char, takeNum s = (s.takeWhile isNumChar, s.dropWhile isNumChar))
    ∧ (∀ (c : Char) (s : List Char), c.isDigit = true →
        (tokNext (c :: s) = some (.error .invalidNumber) ↔
          parseFloat (c :: (takeNum s).1) = none))
    ∧ (∀ (c : Char) (s : List Char) (q : ℚ), c.isDigit = true →
        parseFloat (c :: (takeNum s).1) = some q →
        tokNext (c :: s) = some (.ok (.number q, (takeNum s).2)))
    ∧ tokenize "1....".data = .error .invalidNumber
    ∧ tokenize "1.324.3".data = .error .invalidNumber
    ∧ TokenizingError.message .invalidNumber = "Invalid number format" := by
  have hstep : ∀ (c : Char) (s : List Char), c.isDigit = true →
      tokNext (c :: s) =
        some (match parseFloat (c :: (takeNum s).1) with
              | some q => .ok (.number q, (takeNum s).2)
              | none => .error .invalidNumber) := by
    intro c s h
    obtain ⟨h1, h2, h3, h4, h5, h6, h7⟩ := isDigit_ne_ops h
    simp only [tokNext, skipSpaces, if_neg h1, Option.some.injEq]
    unfold tokNextCore
    rw [if_neg h2, if_neg h3, if_neg h4, if_neg h5, if_neg h6, if_neg h7, if_pos h]
  refine ⟨takeNum_eq_span, fun c s h => ?_, fun c s q h hpf => ?_,
    by decide, by decide, rfl⟩
  · rw [hstep c s h]
    cases hpf : parseFloat (c :: (takeNum s).1) with
    | some q => simp
    | none => simp
  · rw [hstep c s h, hpf]

theorem C8_number_scanning_witness :
    ('1'.isDigit = true)
    ∧ (tokNext ('1' :: "....".data) = some (.error .invalidNumber) ↔
        parseFloat ('1' :: (takeNum "....".data).1) = none)
    ∧ parseFloat ('1' :: (takeNum "2 ".data).1) = some 12
    ∧ tokNext ('1' :: "2 ".data) = some (.ok (.number 12, (takeNum "2 ".data).2)) :=
  ⟨by decide,
   C8_number_scanning.2.1 '1' "....".data (by decide),
   by decide,
   C8_number_scanning.2.2.1 '1' "2 ".data 12 (by decide) (by decide)⟩

/-- Claim C9: `parse()` performs no end-of-input check: on `"1 2"`,
which tokenizes to two number tokens, it returns `Ok(Number(1.0))`
built from the leading token and silently ignores the trailing one. -/
theorem C9_trailing_tokens :
    tokenize "1 2".data = .ok [.number 1, .number 2]
    ∧ parseStr "1 2".data = .ok (.number 1) := by
  constructor <;> decide

/-- Claim C10: because the divisor check compares the evaluated right
child with `0.0` (and IEEE `==` identifies `-0.0` with `0.0`, as `ℚ`
equality does), a divisor of `Negate(Number(0.0))` triggers the
`"Division by zero"` error for every left operand `l`, rather than
producing a signed infinity. -/
theorem C10_negative_zero_divisor : ∀ l : Expression,
    evalE (.divide l (.negate (.number 0))) = .error ⟨"Division by zero"⟩ := by
  intro l
  simp [evalE, neg_zero]

/-- `s` tokenizes to `ts` under every sufficient fuel. -/
def tokenizeOk (s : List Char) (ts : List Token) : Prop :=
  ∀ fuel : Nat, s.length < fuel → tokenizeF fuel s = some (.ok ts)

theorem tokenizeOk_iff {s : List Char} {ts : List Token} :
    tokenize s = .ok ts ↔ tokenizeOk s ts := by
  constructor
  · intro h fuel hf
    rw [tokenizeF_eq_tokenize hf, h]
  · intro h
    have h2 := h (s.length + 1) (by omega)
    rw [tokenizeF_eq_tokenize (show s.length < s.length + 1 by omega)] at h2
    exact Option.some.inj h2

theorem tokenizeOk_nil : tokenizeOk [] [] := by
  intro fuel hf
  obtain ⟨k, rfl⟩ : ∃ k, fuel = k + 1 := ⟨fuel - 1, by omega⟩
  rfl

theorem tokenizeOk_space {s : List Char} {ts : List Token}
    (h : tokenizeOk s ts) : tokenizeOk (' ' :: s) ts := by
  intro fuel hf
  obtain ⟨k, rfl⟩ : ∃ k, fuel = k + 1 := ⟨fuel - 1, by omega⟩
  have hstep : tokenizeF (k + 1) (' ' :: s) = tokenizeF (k + 1) s := by
    simp only [tokenizeF]
    rw [show tokNext (' ' :: s) = tokNext s from rfl]
  rw [hstep]
  exact h (k + 1) (by simp only [List.length_cons] at hf; omega)

/-- Prepending a single-character token (operator or bracket) to a
tokenization. -/
theorem tokenizeOk_cons {c : Char} {t : Token} {s : List Char} {ts : List Token}
    (hc : c ≠ ' ') (hcore : ∀ rest : List Char, tokNextCore c rest = .ok (t, rest))
    (h : tokenizeOk s ts) : tokenizeOk (c :: s) (t :: ts) := by
  intro fuel hf
  obtain ⟨k, rfl⟩ : ∃ k, fuel = k + 1 := ⟨fuel - 1, by omega⟩
  have hnext : tokNext (c :: s) = some (.ok (t, s)) := by
    simp only [tokNext, skipSpaces, if_neg hc, hcore]
  simp only [tokenizeF, hnext]
  rw [h k (by simp only [List.length_cons] at hf; omega)]
  rfl

/-- The continuation after a numeric literal must not begin with a digit
or dot (else the tokenizer would merge it into the literal). -/
def headNotNum : List Char → Prop
  | [] => True
  | c :: _ => isNumChar c = false

theorem span_all_append {cs s : List Char}
    (hcs : cs.all isNumChar = true) (hs : headNotNum s) :
    (cs ++ s).takeWhile isNumChar = cs ∧ (cs ++ s).dropWhile isNumChar = s := by
  induction cs with
  | nil =>
    simp only [List.nil_append]
    cases s with
    | nil => simp [List.takeWhile, List.dropWhile]
    | cons d tl =>
      have hd : isNumChar d = false := hs
      simp [List.takeWhile, List.dropWhile, hd]
  | cons a tl ih =>
    simp only [List.all_cons, Bool.and_eq_true] at hcs
    obtain ⟨ha, htl⟩ := hcs
    have hrec := ih htl
    rw [List.cons_append, List.takeWhile_cons_of_pos ha,
      List.dropWhile_cons_of_pos ha, hrec.1, hrec.2]
    exact ⟨rfl, rfl⟩

/-- Prepending a numeric literal (initial digit `c`, continuation `cs`)
to a tokenization whose input does not begin with a digit or dot. -/
theorem tokenizeOk_number {c : Char} {cs s : List Char} {q : ℚ} {ts : List Token}
    (hc : c.isDigit = true) (hcs : cs.all isNumChar = true)
    (hsafe : headNotNum s) (hpf : parseFloat (c :: cs) = some q)
    (h : tokenizeOk s ts) : tokenizeOk (c :: cs ++ s) (.number q :: ts) := by
  intro fuel hf
  obtain ⟨k, rfl⟩ : ∃ k, fuel = k + 1 := ⟨fuel - 1, by omega⟩
  obtain ⟨h1, h2, h3, h4, h5, h6, h7⟩ := isDigit_ne_ops hc
  have hspan := span_all_append hcs hsafe
  have htn : takeNum (cs ++ s) = (cs, s) := by
    rw [takeNum_eq_span, hspan.1, hspan.2]
  have hnext : tokNext (c :: (cs ++ s)) = some (.ok (.number q, s)) := by
    simp only [tokNext, skipSpaces, if_neg h1, Option.some.injEq]
    unfold tokNextCore
    rw [if_neg h2, if_neg h3, if_neg h4, if_neg h5, if_neg h6, if_neg h7,
      if_pos hc, htn]
    simp only [hpf]
  simp only [List.cons_append, tokenizeF, hnext]
  rw [h k (by simp only [List.length_cons, List.length_append] at hf; omega)]
  rfl

/-- The four binary operators, with their token and AST node. -/
inductive BinOp where
  | add
  | sub
  | mul
  | div

/-- The token of a binary operator. -/
def BinOp.token : BinOp → Token
  | .add => .plus
  | .sub => .minus
  | .mul => .star
  | .div => .slash

/-- The AST node built for a binary operator. -/
def BinOp.node : BinOp → Expression → Expression → Expression
  | .add, a, b => .add a b
  | .sub, a, b => .subtract a b
  | .mul, a, b => .multiply a b
  | .div, a, b => .divide a b

/-- `s` is a single numeric-literal text with value `q`: it starts with
a digit, consists of digits and dots, and `f64`-parses to `q`. -/
def isNumLit (s : List Char) (q : ℚ) : Bool :=
  (match s with
   | [] => false
   | c :: _ => c.isDigit)
  && s.all isNumChar
  && decide (parseFloat s = some q)

/-- Token sequences of well-formed fully parenthesized expression
strings, with the tree each denotes.  Flag `true` is an atom: a number
token whose value renders to a literal that re-reads to itself (i.e. the
literal is the canonical decimal text of its value), a negated atom, or
a parenthesized sequence; flag `false` is a full expression: an atom, or
one binary operator applied to two atoms (all deeper structure is
written with explicit brackets — that is what "fully parenthesized"
means, so the bracketing alone determines the tree). -/
inductive Gram : Bool → List Token → Expression → Prop where
  | num (q : ℚ) (h : isNumLit (numToString q) q = true) :
      Gram true [.number q] (.number q)
  | neg {ts : List Token} {e : Expression} (h : Gram true ts e) :
      Gram true (.minus :: ts) (.negate e)
  | paren {ts : List Token} {e : Expression} (h : Gram false ts e) :
      Gram true (.leftParen :: (ts ++ [.rightParen])) (.grouping e)
  | atom {ts : List Token} {e : Expression} (h : Gram true ts e) :
      Gram false ts e
  | binop (op : BinOp) {ts₁ ts₂ : List Token} {e₁ e₂ : Expression}
      (h₁ : Gram true ts₁ e₁) (h₂ : Gram true ts₂ e₂) :
      Gram false (ts₁ ++ op.token :: ts₂) (op.node e₁ e₂)

/-- A well-formed fully parenthesized expression string: its
tokenization is a fully parenthesized token sequence. -/
def FullyParenthesized (s : List Char) : Prop :=
  ∃ (ts : List Token) (e : Expression), tokenize s = .ok ts ∧ Gram false ts e

/-- Tokens on which the `factor` continuation loop breaks cleanly
(rather than consuming further or raising a bracket error). -/
def stopsFactor (b : Nat) : List Token → Prop
  | [] => True
  | t :: _ => t ≠ .star ∧ t ≠ .slash ∧ (t = .rightParen → b ≠ 0)

/-- Tokens on which the `term` continuation loop breaks cleanly. -/
def stopsTerm (b : Nat) : List Token → Prop
  | [] => True
  | t :: _ => t ≠ .plus ∧ t ≠ .minus ∧ (t = .rightParen → b ≠ 0) ∧
      (t = .leftParen → b ≠ 0)

theorem factorLoop_stop {b : Nat} {rest : List Token} {e : Expression} {fuel : Nat}
    (h : stopsFactor b rest) (hf : 1 ≤ fuel) :
    runP fuel (.factorLoop e) rest b = some (.ok (e, rest)) := by
  obtain ⟨k, rfl⟩ : ∃ k, fuel = k + 1 := ⟨fuel - 1, by omega⟩
  cases rest with
  | nil => rfl
  | cons t tail =>
    cases t with
    | star => exact absurd rfl h.1
    | slash => exact absurd rfl h.2.1
    | rightParen =>
      show (if b = 0 then _ else _) = _
      rw [if_neg (h.2.2 rfl)]
    | plus => rfl
    | minus => rfl
    | leftParen => rfl
    | number q => rfl

theorem termLoop_stop {b : Nat} {rest : List Token} {e : Expression} {fuel : Nat}
    (h : stopsTerm b rest) (hf : 1 ≤ fuel) :
    runP fuel (.termLoop e) rest b = some (.ok (e, rest)) := by
  obtain ⟨k, rfl⟩ : ∃ k, fuel = k + 1 := ⟨fuel - 1, by omega⟩
  cases rest with
  | nil => rfl
  | cons t tail =>
    cases t with
    | plus => exact absurd rfl h.1
    | minus => exact absurd rfl h.2.1
    | rightParen =>
      show (if b = 0 then _ else _) = _
      rw [if_neg (h.2.2.1 rfl)]
    | leftParen =>
      show (if b = 0 then _ else _) = _
      rw [if_neg (h.2.2.2 rfl)]
    | star => rfl
    | slash => rfl
    | number q => rfl

/-- Interpretation of an atom for the parser: `unary` consumes exactly
its tokens and builds exactly its tree, whatever follows. -/
def AtomParses (ts : List Token) (e : Expression) : Prop :=
  ∀ (rest : List Token) (b fuel : Nat), 8 * ts.length + 5 ≤ fuel →
    runP fuel .unary (ts ++ rest) b = some (.ok (e, rest))

/-- Interpretation of a full expression for the parser: `expression`
consumes exactly its tokens and builds exactly its tree, whenever the
continuation starts with a token both loops break on. -/
def FullParses (ts : List Token) (e : Expression) : Prop :=
  ∀ (rest : List Token) (b fuel : Nat), stopsFactor b rest → stopsTerm b rest →
    8 * ts.length + 10 ≤ fuel →
    runP fuel .expr (ts ++ rest) b = some (.ok (e, rest))

theorem atomParses_num (q : ℚ) : AtomParses [.number q] (.number q) := by
  intro rest b fuel hf
  obtain ⟨k, rfl⟩ : ∃ k, fuel = k + 2 := ⟨fuel - 2, by omega⟩
  rfl

theorem atomParses_neg {ts : List Token} {e : Expression}
    (h : AtomParses ts e) : AtomParses (.minus :: ts) (.negate e) := by
  intro rest b fuel hf
  simp only [List.length_cons] at hf
  obtain ⟨k, rfl⟩ : ∃ k, fuel = k + 1 := ⟨fuel - 1, by omega⟩
  rw [List.cons_append]
  rw [show runP (k + 1) .unary (.minus :: (ts ++ rest)) b =
        (match runP k .unary (ts ++ rest) b with
         | some (.ok (e', rest')) => some (.ok (.negate e', rest'))
         | r => r) from rfl]
  rw [h rest b k (by omega)]

theorem atomParses_paren {ts : List Token} {e : Expression}
    (h : FullParses ts e) :
    AtomParses (.leftParen :: (ts ++ [.rightParen])) (.grouping e) := by
  intro rest b fuel hf
  simp only [List.length_cons, List.length_append] at hf
  obtain ⟨k, rfl⟩ : ∃ k, fuel = k + 2 := ⟨fuel - 2, by omega⟩
  have hlist : (Token.leftParen :: (ts ++ [Token.rightParen])) ++ rest
      = Token.leftParen :: (ts ++ (Token.rightParen :: rest)) := by simp
  rw [hlist]
  rw [show runP (k + 2) .unary (.leftParen :: (ts ++ (.rightParen :: rest))) b =
        runP (k + 1) .primary (.leftParen :: (ts ++ (.rightParen :: rest))) b
        from rfl]
  rw [show runP (k + 1) .primary (.leftParen :: (ts ++ (.rightParen :: rest))) b =
        (match runP k .expr (ts ++ (.rightParen :: rest)) (b + 1) with
         | some (.ok (e', rest')) =>
           match rest' with
           | .rightParen :: rest'' => some (.ok (.grouping e', rest''))
           | _ => some (.error (.syntaxError "Expect ')' after expression."))
         | r => r) from rfl]
  rw [h (.rightParen :: rest) (b + 1) k
      (by simp [stopsFactor]) (by simp [stopsTerm]) (by omega)]

theorem fullParses_atom {ts : List Token} {e : Expression}
    (h : AtomParses ts e) : FullParses ts e := by
  intro rest b fuel hsf hst hf
  obtain ⟨k, rfl⟩ : ∃ k, fuel = k + 3 := ⟨fuel - 3, by omega⟩
  have h1 : runP k .unary (ts ++ rest) b = some (.ok (e, rest)) :=
    h rest b k (by omega)
  have h2 : runP k (.factorLoop e) rest b = some (.ok (e, rest)) :=
    factorLoop_stop hsf (by omega)
  have hfac : runP (k + 1) .factor (ts ++ rest) b = some (.ok (e, rest)) := by
    rw [show runP (k + 1) .factor (ts ++ rest) b =
          (match runP k .unary (ts ++ rest) b with
           | some (.ok (e', rest')) => runP k (.factorLoop e') rest' b
           | r => r) from rfl, h1]
    exact h2
  have h3 : runP (k + 1) (.termLoop e) rest b = some (.ok (e, rest)) :=
    termLoop_stop hst (by omega)
  have hterm : runP (k + 2) .term (ts ++ rest) b = some (.ok (e, rest)) := by
    rw [show runP (k + 2) .term (ts ++ rest) b =
          (match runP (k + 1) .factor (ts ++ rest) b with
           | some (.ok (e', rest')) => runP (k + 1) (.termLoop e') rest' b
           | r => r) from rfl, hfac]
    exact h3
  exact hterm

theorem fullParses_mul {ts₁ ts₂ : List Token} {e₁ e₂ : Expression}
    (h₁ : AtomParses ts₁ e₁) (h₂ : AtomParses ts₂ e₂) :
    FullParses (ts₁ ++ .star :: ts₂) (.multiply e₁ e₂) := by
  intro rest b fuel hsf hst hf
  simp only [List.length_append, List.length_cons] at hf
  obtain ⟨k, rfl⟩ : ∃ k, fuel = k + 4 := ⟨fuel - 4, by omega⟩
  have hlist : (ts₁ ++ Token.star :: ts₂) ++ rest
      = ts₁ ++ (Token.star :: (ts₂ ++ rest)) := by simp
  rw [hlist]
  have h1 : runP (k + 1) .unary (ts₁ ++ (.star :: (ts₂ ++ rest))) b
      = some (.ok (e₁, .star :: (ts₂ ++ rest))) := h₁ _ b (k + 1) (by omega)
  have h2 : runP k .unary (ts₂ ++ rest) b = some (.ok (e₂, rest)) :=
    h₂ rest b k (by omega)
  have h3 : runP k (.factorLoop (.multiply e₁ e₂)) rest b
      = some (.ok (.multiply e₁ e₂, rest)) := factorLoop_stop hsf (by omega)
  have h4 : runP (k + 1) (.factorLoop e₁) (.star :: (ts₂ ++ rest)) b
      = some (.ok (.multiply e₁ e₂, rest)) := by
    rw [show runP (k + 1) (.factorLoop e₁) (.star :: (ts₂ ++ rest)) b =
          (match runP k .unary (ts₂ ++ rest) b with
           | some (.ok (right, rest')) =>
             runP k (.factorLoop (.multiply e₁ right)) rest' b
           | r => r) from rfl, h2]
    exact h3
  have h5 : runP (k + 2) .factor (ts₁ ++ (.star :: (ts₂ ++ rest))) b
      = some (.ok (.multiply e₁ e₂, rest)) := by
    rw [show runP (k + 2) .factor (ts₁ ++ (.star :: (ts₂ ++ rest))) b =
          (match runP (k + 1) .unary (ts₁ ++ (.star :: (ts₂ ++ rest))) b with
           | some (.ok (e', rest')) => runP (k + 1) (.factorLoop e') rest' b
           | r => r) from rfl, h1]
    exact h4
  have h6 : runP (k + 2) (.termLoop (.multiply e₁ e₂)) rest b
      = some (.ok (.multiply e₁ e₂, rest)) := termLoop_stop hst (by omega)
  have h7 : runP (k + 3) .term (ts₁ ++ (.star :: (ts₂ ++ rest))) b
      = some (.ok (.multiply e₁ e₂, rest)) := by
    rw [show runP (k + 3) .term (ts₁ ++ (.star :: (ts₂ ++ rest))) b =
          (match runP (k + 2) .factor (ts₁ ++ (.star :: (ts₂ ++ rest))) b with
           | some (.ok (e', rest')) => runP (k + 2) (.termLoop e') rest' b
           | r => r) from rfl, h5]
    exact h6
  exact h7

theorem fullParses_div {ts₁ ts₂ : List Token} {e₁ e₂ : Expression}
    (h₁ : AtomParses ts₁ e₁) (h₂ : AtomParses ts₂ e₂) :
    FullParses (ts₁ ++ .slash :: ts₂) (.divide e₁ e₂) := by
  intro rest b fuel hsf hst hf
  simp only [List.length_append, List.length_cons] at hf
  obtain ⟨k, rfl⟩ : ∃ k, fuel = k + 4 := ⟨fuel - 4, by omega⟩
  have hlist : (ts₁ ++ Token.slash :: ts₂) ++ rest
      = ts₁ ++ (Token.slash :: (ts₂ ++ rest)) := by simp
  rw [hlist]
  have h1 : runP (k + 1) .unary (ts₁ ++ (.slash :: (ts₂ ++ rest))) b
      = some (.ok (e₁, .slash :: (ts₂ ++ rest))) := h₁ _ b (k + 1) (by omega)
  have h2 : runP k .unary (ts₂ ++ rest) b = some (.ok (e₂, rest)) :=
    h₂ rest b k (by omega)
  have h3 : runP k (.factorLoop (.divide e₁ e₂)) rest b
      = some (.ok (.divide e₁ e₂, rest)) := factorLoop_stop hsf (by omega)
  have h4 : runP (k + 1) (.factorLoop e₁) (.slash :: (ts₂ ++ rest)) b
      = some (.ok (.divide e₁ e₂, rest)) := by
    rw [show runP (k + 1) (.factorLoop e₁) (.slash :: (ts₂ ++ rest)) b =
          (match runP k .unary (ts₂ ++ rest) b with
           | some (.ok (right, rest')) =>
             runP k (.factorLoop (.divide e₁ right)) rest' b
           | r => r) from rfl, h2]
    exact h3
  have h5 : runP (k + 2) .factor (ts₁ ++ (.slash :: (ts₂ ++ rest))) b
      = some (.ok (.divide e₁ e₂, rest)) := by
    rw [show runP (k + 2) .factor (ts₁ ++ (.slash :: (ts₂ ++ rest))) b =
          (match runP (k + 1) .unary (ts₁ ++ (.slash :: (ts₂ ++ rest))) b with
           | some (.ok (e', rest')) => runP (k + 1) (.factorLoop e') rest' b
           | r => r) from rfl, h1]
    exact h4
  have h6 : runP (k + 2) (.termLoop (.divide e₁ e₂)) rest b
      = some (.ok (.divide e₁ e₂, rest)) := termLoop_stop hst (by omega)
  have h7 : runP (k + 3) .term (ts₁ ++ (.slash :: (ts₂ ++ rest))) b
      = some (.ok (.divide e₁ e₂, rest)) := by
    rw [show runP (k + 3) .term (ts₁ ++ (.slash :: (ts₂ ++ rest))) b =
          (match runP (k + 2) .factor (ts₁ ++ (.slash :: (ts₂ ++ rest))) b with
           | some (.ok (e', rest')) => runP (k + 2) (.termLoop e') rest' b
           | r => r) from rfl, h5]
    exact h6
  exact h7

theorem fullParses_add {ts₁ ts₂ : List Token} {e₁ e₂ : Expression}
    (h₁ : AtomParses ts₁ e₁) (h₂ : AtomParses ts₂ e₂) :
    FullParses (ts₁ ++ .plus :: ts₂) (.add e₁ e₂) := by
  intro rest b fuel hsf hst hf
  simp only [List.length_append, List.length_cons] at hf
  obtain ⟨k, rfl⟩ : ∃ k, fuel = k + 4 := ⟨fuel - 4, by omega⟩
  have hlist : (ts₁ ++ Token.plus :: ts₂) ++ rest
      = ts₁ ++ (Token.plus :: (ts₂ ++ rest)) := by simp
  rw [hlist]
  have h1 : runP (k + 1) .unary (ts₁ ++ (.plus :: (ts₂ ++ rest))) b
      = some (.ok (e₁, .plus :: (ts₂ ++ rest))) := h₁ _ b (k + 1) (by omega)
  have h1b : runP (k + 1) (.factorLoop e₁) (.plus :: (ts₂ ++ rest)) b
      = some (.ok (e₁, .plus :: (ts₂ ++ rest))) := rfl
  have h5 : runP (k + 2) .factor (ts₁ ++ (.plus :: (ts₂ ++ rest))) b
      = some (.ok (e₁, .plus :: (ts₂ ++ rest))) := by
    rw [show runP (k + 2) .factor (ts₁ ++ (.plus :: (ts₂ ++ rest))) b =
          (match runP (k + 1) .unary (ts₁ ++ (.plus :: (ts₂ ++ rest))) b with
           | some (.ok (e', rest')) => runP (k + 1) (.factorLoop e') rest' b
           | r => r) from rfl, h1]
    exact h1b
  have h2 : runP k .unary (ts₂ ++ rest) b = some (.ok (e₂, rest)) :=
    h₂ rest b k (by omega)
  have h3 : runP k (.factorLoop e₂) rest b = some (.ok (e₂, rest)) :=
    factorLoop_stop hsf (by omega)
  have hfac2 : runP (k + 1) .factor (ts₂ ++ rest) b = some (.ok (e₂, rest)) := by
    rw [show runP (k + 1) .factor (ts₂ ++ rest) b =
          (match runP k .unary (ts₂ ++ rest) b with
           | some (.ok (e', rest')) => runP k (.factorLoop e') rest' b
           | r => r) from rfl, h2]
    exact h3
  have h6 : runP (k + 1) (.termLoop (.add e₁ e₂)) rest b
      = some (.ok (.add e₁ e₂, rest)) := termLoop_stop hst (by omega)
  have hTL : runP (k + 2) (.termLoop e₁) (.plus :: (ts₂ ++ rest)) b
      = some (.ok (.add e₁ e₂, rest)) := by
    rw [show runP (k + 2) (.termLoop e₁) (.plus :: (ts₂ ++ rest)) b =
          (match runP (k + 1) .factor (ts₂ ++ rest) b with
           | some (.ok (right, rest')) =>
             runP (k + 1) (.termLoop (.add e₁ right)) rest' b
           | r => r) from rfl, hfac2]
    exact h6
  have h7 : runP (k + 3) .term (ts₁ ++ (.plus :: (ts₂ ++ rest))) b
      = some (.ok (.add e₁ e₂, rest)) := by
    rw [show runP (k + 3) .term (ts₁ ++ (.plus :: (ts₂ ++ rest))) b =
          (match runP (k + 2) .factor (ts₁ ++ (.plus :: (ts₂ ++ rest))) b with
           | some (.ok (e', rest')) => runP (k + 2) (.termLoop e') rest' b
           | r => r) from rfl, h5]
    exact hTL
  exact h7

theorem fullParses_sub {ts₁ ts₂ : List Token} {e₁ e₂ : Expression}
    (h₁ : AtomParses ts₁ e₁) (h₂ : AtomParses ts₂ e₂) :
    FullParses (ts₁ ++ .minus :: ts₂) (.subtract e₁ e₂) := by
  intro rest b fuel hsf hst hf
  simp only [List.length_append, List.length_cons] at hf
  obtain ⟨k, rfl⟩ : ∃ k, fuel = k + 4 := ⟨fuel - 4, by omega⟩
  have hlist : (ts₁ ++ Token.minus :: ts₂) ++ rest
      = ts₁ ++ (Token.minus :: (ts₂ ++ rest)) := by simp
  rw [hlist]
  have h1 : runP (k + 1) .unary (ts₁ ++ (.minus :: (ts₂ ++ rest))) b
      = some (.ok (e₁, .minus :: (ts₂ ++ rest))) := h₁ _ b (k + 1) (by omega)
  have h1b : runP (k + 1) (.factorLoop e₁) (.minus :: (ts₂ ++ rest)) b
      = some (.ok (e₁, .minus :: (ts₂ ++ rest))) := rfl
  have h5 : runP (k + 2) .factor (ts₁ ++ (.minus :: (ts₂ ++ rest))) b
      = some (.ok (e₁, .minus :: (ts₂ ++ rest))) := by
    rw [show runP (k + 2) .factor (ts₁ ++ (.minus :: (ts₂ ++ rest))) b =
          (match runP (k + 1) .unary (ts₁ ++ (.minus :: (ts₂ ++ rest))) b with
           | some (.ok (e', rest')) => runP (k + 1) (.factorLoop e') rest' b
           | r => r) from rfl, h1]
    exact h1b
  have h2 : runP k .unary (ts₂ ++ rest) b = some (.ok (e₂, rest)) :=
    h₂ rest b k (by omega)
  have h3 : runP k (.factorLoop e₂) rest b = some (.ok (e₂, rest)) :=
    factorLoop_stop hsf (by omega)
  have hfac2 : runP (k + 1) .factor (ts₂ ++ rest) b = some (.ok (e₂, rest)) := by
    rw [show runP (k + 1) .factor (ts₂ ++ rest) b =
          (match runP k .unary (ts₂ ++ rest) b with
           | some (.ok (e', rest')) => runP k (.factorLoop e') rest' b
           | r => r) from rfl, h2]
    exact h3
  have h6 : runP (k + 1) (.termLoop (.subtract e₁ e₂)) rest b
      = some (.ok (.subtract e₁ e₂, rest)) := termLoop_stop hst (by omega)
  have hTL : runP (k + 2) (.termLoop e₁) (.minus :: (ts₂ ++ rest)) b
      = some (.ok (.subtract e₁ e₂, rest)) := by
    rw [show runP (k + 2) (.termLoop e₁) (.minus :: (ts₂ ++ rest)) b =
          (match runP (k + 1) .factor (ts₂ ++ rest) b with
           | some (.ok (right, rest')) =>
             runP (k + 1) (.termLoop (.subtract e₁ right)) rest' b
           | r => r) from rfl, hfac2]
    exact h6
  have h7 : runP (k + 3) .term (ts₁ ++ (.minus :: (ts₂ ++ rest))) b
      = some (.ok (.subtract e₁ e₂, rest)) := by
    rw [show runP (k + 3) .term (ts₁ ++ (.minus :: (ts₂ ++ rest))) b =
          (match runP (k + 2) .factor (ts₁ ++ (.minus :: (ts₂ ++ rest))) b with
           | some (.ok (e', rest')) => runP (k + 2) (.termLoop e') rest' b
           | r => r) from rfl, h5]
    exact hTL
  exact h7

/-- Every fully parenthesized token sequence parses to exactly its
denoted tree: atoms through `unary`, full expressions through
`expression`. -/
theorem gram_parse {fl : Bool} {ts : List Token} {e : Expression}
    (h : Gram fl ts e) :
    (fl = true → AtomParses ts e) ∧ (fl = false → FullParses ts e) := by
  induction h with
  | num q hq => exact ⟨fun _ => atomParses_num q, fun hk => nomatch hk⟩
  | neg hsub ih => exact ⟨fun _ => atomParses_neg (ih.1 rfl), fun hk => nomatch hk⟩
  | paren hsub ih =>
    exact ⟨fun _ => atomParses_paren (ih.2 rfl), fun hk => nomatch hk⟩
  | atom hsub ih =>
    exact ⟨fun hk => (nomatch hk), fun _ => fullParses_atom (ih.1 rfl)⟩
  | binop op h₁ h₂ ih₁ ih₂ =>
    refine ⟨fun hk => (nomatch hk), fun _ => ?_⟩
    cases op with
    | add => exact fullParses_add (ih₁.1 rfl) (ih₂.1 rfl)
    | sub => exact fullParses_sub (ih₁.1 rfl) (ih₂.1 rfl)
    | mul => exact fullParses_mul (ih₁.1 rfl) (ih₂.1 rfl)
    | div => exact fullParses_div (ih₁.1 rfl) (ih₂.1 rfl)

theorem headNotNum_cons {c : Char} (h : isNumChar c = false) (s : List Char) :
    headNotNum (c :: s) := h

/-- Re-tokenizing a pretty-printed tree recovers its token sequence, in
compositional form: whatever safely follows, the rendering of `e`
contributes exactly the tokens `ts`. -/
theorem gram_render {fl : Bool} {ts : List Token} {e : Expression}
    (h : Gram fl ts e) :
    ∀ (rest : List Char) (ts' : List Token), headNotNum rest →
      tokenizeOk rest ts' → tokenizeOk (renderChars e ++ rest) (ts ++ ts') := by
  induction h with
  | num q hq =>
    intro rest ts' hsafe hok
    simp only [isNumLit, Bool.and_eq_true, decide_eq_true_eq] at hq
    obtain ⟨⟨hhead, hall⟩, hpf⟩ := hq
    show tokenizeOk (numToString q ++ rest) ([.number q] ++ ts')
    cases hnts : numToString q with
    | nil => rw [hnts] at hhead; exact absurd hhead (by simp)
    | cons c cs =>
      rw [hnts] at hall hpf
      have hc : c.isDigit = true := by rw [hnts] at hhead; exact hhead
      simp only [List.all_cons, Bool.and_eq_true] at hall
      exact tokenizeOk_number hc hall.2 hsafe hpf hok
  | neg hsub ih =>
    intro rest ts' hsafe hok
    exact tokenizeOk_cons (by decide) (fun r => rfl) (ih rest ts' hsafe hok)
  | @paren ts e hsub ih =>
    intro rest ts' hsafe hok
    have hinner : tokenizeOk (')' :: rest) (.rightParen :: ts') :=
      tokenizeOk_cons (by decide) (fun r => rfl) hok
    have h2 : tokenizeOk (renderChars e ++ (')' :: rest))
        (ts ++ (.rightParen :: ts')) :=
      ih (')' :: rest) _ (headNotNum_cons (by decide) _) hinner
    have h3 : tokenizeOk ('(' :: (renderChars e ++ (')' :: rest)))
        (.leftParen :: (ts ++ (.rightParen :: ts'))) :=
      tokenizeOk_cons (by decide) (fun r => rfl) h2
    show tokenizeOk (('(' :: (renderChars e ++ [')'])) ++ rest)
        ((.leftParen :: (ts ++ [.rightParen])) ++ ts')
    rw [show (('(' :: (renderChars e ++ [')'])) ++ rest : List Char)
          = '(' :: (renderChars e ++ (')' :: rest)) by simp]
    rw [show ((Token.leftParen :: (ts ++ [Token.rightParen])) ++ ts' : List Token)
          = Token.leftParen :: (ts ++ (Token.rightParen :: ts')) by simp]
    exact h3
  | @binop op ts₁ ts₂ e₁ e₂ h₁ h₂ ih₁ ih₂ =>
    intro rest ts' hsafe hok
    cases op with
    | add =>
      have hop : tokenizeOk (' ' :: ('+' :: (' ' :: (renderChars e₂ ++ rest))))
          (.plus :: (ts₂ ++ ts')) :=
        tokenizeOk_space (tokenizeOk_cons (by decide) (fun r => rfl)
          (tokenizeOk_space (ih₂ rest ts' hsafe hok)))
      have hl := ih₁ (' ' :: ('+' :: (' ' :: (renderChars e₂ ++ rest))))
        (.plus :: (ts₂ ++ ts')) (headNotNum_cons (by decide) _) hop
      show tokenizeOk ((renderChars e₁ ++ (' ' :: '+' :: ' ' :: renderChars e₂))
          ++ rest) ((ts₁ ++ Token.plus :: ts₂) ++ ts')
      rw [show ((renderChars e₁ ++ (' ' :: '+' :: ' ' :: renderChars e₂)) ++ rest
            : List Char)
            = renderChars e₁ ++ (' ' :: ('+' :: (' ' :: (renderChars e₂ ++ rest))))
            by simp]
      rw [show ((ts₁ ++ Token.plus :: ts₂) ++ ts' : List Token)
            = ts₁ ++ (Token.plus :: (ts₂ ++ ts')) by simp]
      exact hl
    | sub =>
      have hop : tokenizeOk (' ' :: ('-' :: (' ' :: (renderChars e₂ ++ rest))))
          (.minus :: (ts₂ ++ ts')) :=
        tokenizeOk_space (tokenizeOk_cons (by decide) (fun r => rfl)
          (tokenizeOk_space (ih₂ rest ts' hsafe hok)))
      have hl := ih₁ (' ' :: ('-' :: (' ' :: (renderChars e₂ ++ rest))))
        (.minus :: (ts₂ ++ ts')) (headNotNum_cons (by decide) _) hop
      show tokenizeOk ((renderChars e₁ ++ (' ' :: '-' :: ' ' :: renderChars e₂))
          ++ rest) ((ts₁ ++ Token.minus :: ts₂) ++ ts')
      rw [show ((renderChars e₁ ++ (' ' :: '-' :: ' ' :: renderChars e₂)) ++ rest
            : List Char)
            = renderChars e₁ ++ (' ' :: ('-' :: (' ' :: (renderChars e₂ ++ rest))))
            by simp]
      rw [show ((ts₁ ++ Token.minus :: ts₂) ++ ts' : List Token)
            = ts₁ ++ (Token.minus :: (ts₂ ++ ts')) by simp]
      exact hl
    | mul =>
      have hop : tokenizeOk (' ' :: ('*' :: (' ' :: (renderChars e₂ ++ rest))))
          (.star :: (ts₂ ++ ts')) :=
        tokenizeOk_space (tokenizeOk_cons (by decide) (fun r => rfl)
          (tokenizeOk_space (ih₂ rest ts' hsafe hok)))
      have hl := ih₁ (' ' :: ('*' :: (' ' :: (renderChars e₂ ++ rest))))
        (.star :: (ts₂ ++ ts')) (headNotNum_cons (by decide) _) hop
      show tokenizeOk ((renderChars e₁ ++ (' ' :: '*' :: ' ' :: renderChars e₂))
          ++ rest) ((ts₁ ++ Token.star :: ts₂) ++ ts')
      rw [show ((renderChars e₁ ++ (' ' :: '*' :: ' ' :: renderChars e₂)) ++ rest
            : List Char)
            = renderChars e₁ ++ (' ' :: ('*' :: (' ' :: (renderChars e₂ ++ rest))))
            by simp]
      rw [show ((ts₁ ++ Token.star :: ts₂) ++ ts' : List Token)
            = ts₁ ++ (Token.star :: (ts₂ ++ ts')) by simp]
      exact hl
    | div =>
      have hop : tokenizeOk (' ' :: ('/' :: (' ' :: (renderChars e₂ ++ rest))))
          (.slash :: (ts₂ ++ ts')) :=
        tokenizeOk_space (tokenizeOk_cons (by decide) (fun r => rfl)
          (tokenizeOk_space (ih₂ rest ts' hsafe hok)))
      have hl := ih₁ (' ' :: ('/' :: (' ' :: (renderChars e₂ ++ rest))))
        (.slash :: (ts₂ ++ ts')) (headNotNum_cons (by decide) _) hop
      show tokenizeOk ((renderChars e₁ ++ (' ' :: '/' :: ' ' :: renderChars e₂))
          ++ rest) ((ts₁ ++ Token.slash :: ts₂) ++ ts')
      rw [show ((renderChars e₁ ++ (' ' :: '/' :: ' ' :: renderChars e₂)) ++ rest
            : List Char)
            = renderChars e₁ ++ (' ' :: ('/' :: (' ' :: (renderChars e₂ ++ rest))))
            by simp]
      rw [show ((ts₁ ++ Token.slash :: ts₂) ++ ts' : List Token)
            = ts₁ ++ (Token.slash :: (ts₂ ++ ts')) by simp]
      exact hl
  | atom hsub ih => exact ih

/-- Closed form of `gram_render`: the pretty-printed text of a fully
parenthesized tree tokenizes back to exactly its token sequence. -/
theorem tokenize_render {fl : Bool} {ts : List Token} {e : Expression}
    (h : Gram fl ts e) : tokenize (renderChars e) = .ok ts := by
  have h2 := gram_render h [] [] True.intro tokenizeOk_nil
  rw [List.append_nil, List.append_nil] at h2
  exact tokenizeOk_iff.mpr h2

theorem parseToks_eq {ts rest : List Token} {e : Expression}
    (h : runP (parseFuel ts) .expr ts 0 = some (.ok (e, rest))) :
    parseToks ts = .ok e := by
  unfold parseToks
  split
  · next e' rest' heq =>
    rw [h] at heq
    simp only [Option.some.injEq, Except.ok.injEq, Prod.mk.injEq] at heq
    rw [heq.1]
  · next err heq =>
    rw [h] at heq
    exact absurd heq (by simp)
  · next heq =>
    rw [h] at heq
    exact absurd heq (by simp)

/-- The parse of a fully parenthesized token sequence is its tree. -/
theorem parseToks_of_gram {ts : List Token} {e : Expression}
    (h : Gram false ts e) : parseToks ts = .ok e := by
  have hp := (gram_parse h).2 rfl [] 0 (parseFuel ts) True.intro True.intro
    (by simp [parseFuel])
  rw [List.append_nil] at hp
  exact parseToks_eq hp

/-- Spaces removed; two strings are equal "modulo whitespace
normalization" when their space-stripped texts are equal. -/
def stripSpaces (s : List Char) : List Char := s.filter (fun c => !(c = ' '))

/-- Claim C4 as stated is false: `"07"` is a well-formed fully
parenthesized expression string (a lone numeric literal; `f64` parsing
accepts it with value `7`), but pretty-printing its parse renders the
value's canonical decimal text `"7"`, which differs from `"07"` by more
than whitespace.  Any literal not written in the canonical decimal form
of its value (`"2.0"`, `"1.50"`, ...) breaks the round trip the same
way. -/
theorem C4_counterexample :
    FullyParenthesized "07".data
    ∧ parseStr "07".data = .ok (.number 7)
    ∧ stripSpaces (renderChars (.number 7)) ≠ stripSpaces "07".data :=
  ⟨⟨[.number 7], .number 7, by decide, .atom (.num 7 (by decide))⟩,
   by decide, by decide⟩

/-- Claim C4, amended: for every well-formed fully parenthesized
expression string (tokenization `ts`, denoted tree `e`), parsing yields
exactly `e`, and pretty-printing `e` yields a string that tokenizes back
to exactly `ts` — the round trip preserves the token sequence, hence the
bracket placement.  Equality with the original string modulo whitespace
additionally requires every numeric literal to be written in the
canonical decimal text of its value (the `Gram.num` side condition
compares the literal against the rendering of its value, which the
counterexample shows to be necessary). -/
theorem C4_roundtrip : ∀ (s : List Char) (ts : List Token) (e : Expression),
    tokenize s = .ok ts → Gram false ts e →
    parseStr s = .ok e ∧ tokenize (renderChars e) = .ok ts := by
  intro s ts e h1 h2
  constructor
  · show parseStr s = .ok e
    simp only [parseStr, parserNew, h1]
    exact parseToks_of_gram h2
  · exact tokenize_render h2

theorem C4_roundtrip_witness :
    parseStr "(1 + 2)".data = .ok (.grouping (.add (.number 1) (.number 2)))
    ∧ tokenize (renderChars (.grouping (.add (.number 1) (.number 2)))) =
        .ok [.leftParen, .number 1, .plus, .number 2, .rightParen] :=
  C4_roundtrip "(1 + 2)".data
    [.leftParen, .number 1, .plus, .number 2, .rightParen]
    (.grouping (.add (.number 1) (.number 2)))
    (by decide)
    (Gram.atom (Gram.paren
      (Gram.binop .add (Gram.num 1 (by decide)) (Gram.num 2 (by decide)))))

end Calc
